import Mathlib

/-!
Verification development for the `scanimg` repository.

The file shallowly embeds the components the specification's claims are
about:

* `src/src/promise-pool.js` — the bounded-concurrency scheduler
  `promisePool`.  JavaScript promises settle at times the program does not
  control, so the embedding threads an explicit completion schedule
  (`sched : List Nat`): at each `Promise.race` point the schedule picks
  which in-flight task settles.  Worker functions may reject, which is
  modelled by `Except`; `Promise.all` over the collected result promises
  is `promiseAll`.  The run also emits a trace of start/complete events so
  that concurrency bounds can be stated over instants of the run.
* `src/src/metadata.js` — the remote prober `getRemoteImageMetadata`, the
  local prober `getLocalImageMetadata` and the header parsers
  `parseNumber` / `parseTotalFromContentRange`.  Network and filesystem
  effects are inputs: a `FetchOutcome` per request, a `BodyOutcome` for the
  body read plus image-header decode, a `StatOutcome` for the stat call.
  JavaScript `Number(string)` coercion is modelled over exact rationals
  by `jsStrToNumber`, including the float64 saturation to an infinity at
  the overflow boundary `2^1024 - 2^970` (so, for instance, a 309-digit
  content-range total coerces to Infinity exactly as in the source);
  rounding of in-range values is outside the model, and every numeral
  appearing in a theorem below is exactly representable in float64.
* the report sort in `run` (`src/unnamed/part_002` / `src/index.js`) —
  JavaScript `Array.prototype.sort` is a stable comparator sort, embedded
  as `List.mergeSort` with the comparator `(a, b) => sizeB - sizeA`
  translated to the boolean relation `rowLe`.
-/

set_option maxHeartbeats 1000000
set_option maxRecDepth 10000

namespace Scanimg

/-! ## Task scheduler: `promisePool` (src/src/promise-pool.js) -/

/-- An observable instant-level event of a pool run: task `i` starts
executing, or task `i` settles. -/
inductive PoolEvent where
  | start (i : Nat)
  | complete (i : Nat)
deriving DecidableEq, Repr

/-- A worker promise outcome: `ok` for a fulfilled promise, `error` for a
rejected one (a worker that throws). -/
abbrev PromiseResult (ε β : Type) := Except ε β

/-- `Promise.all` over the ordered `results` array: fulfils with the list
of values when every promise fulfils, and rejects with a rejection reason
as soon as one promise rejects.  (JavaScript rejects with the first
rejection to settle; the claims below only distinguish rejection from
fulfilment, so the first rejection in array order is the representative.) -/
def promiseAll {ε β : Type} : List (Except ε β) → Except ε (List β)
  | [] => .ok []
  | .error e :: _ => .error e
  | .ok b :: rest => (promiseAll rest).map (fun l => b :: l)

/-- The loop body of `promisePool`.  For each item, the worker promise is
created (`Promise.resolve().then(() => iterator(item))`), pushed onto
`results`, and — when `concurrency > 0` — a companion handle is pushed
onto `executing`.  When `executing.length >= concurrency` the loop awaits
`Promise.race(executing)`: the schedule selects the settling handle; a
fulfilled handle splices itself out of `executing`, while a rejected one
makes the awaited race throw, aborting the whole pool.  The second
component is the emitted start/complete event trace. -/
def poolGo {α ε β : Type} (worker : α → Except ε β) (c : Int) :
    List α → Nat → List Nat → List (Except ε β) → List (Nat × Except ε β) →
    List PoolEvent → Except ε (List (Except ε β)) × List PoolEvent
  | [], _, _, results, _, tr => (.ok results, tr)
  | item :: rest, idx, sched, results, executing, tr =>
    let p := worker item
    let results1 := results ++ [p]
    let tr1 := tr ++ [.start idx]
    if 0 < c then
      let executing1 := executing ++ [(idx, p)]
      if c ≤ (executing1.length : Int) then
        let pos := sched.headD 0 % executing1.length
        match executing1[pos]? with
        | none => (.ok results1, tr1)
        | some (j, .error e) => (.error e, tr1 ++ [.complete j])
        | some (j, .ok _) =>
          poolGo worker c rest (idx + 1) sched.tail results1
            (executing1.eraseIdx pos) (tr1 ++ [.complete j])
      else
        poolGo worker c rest (idx + 1) sched results1 executing1 tr1
    else
      poolGo worker c rest (idx + 1) sched results1 executing tr1

/-- `promisePool(items, concurrency, iterator)`: run the loop, then
`Promise.all(results)`.  Returns the awaited overall outcome together with
the event trace of the run under completion schedule `sched`. -/
def promisePool {α ε β : Type} (items : List α) (concurrency : Int)
    (worker : α → Except ε β) (sched : List Nat) :
    Except ε (List β) × List PoolEvent :=
  let r := poolGo worker concurrency items 0 sched [] [] []
  (r.1.bind promiseAll, r.2)

/-- True on a `start` event. -/
def isStartEvent : PoolEvent → Bool
  | .start _ => true
  | .complete _ => false

/-- True on a `complete` event. -/
def isCompleteEvent : PoolEvent → Bool
  | .start _ => false
  | .complete _ => true

/-- Number of tasks in the running state after a trace has happened:
started tasks minus settled tasks. -/
def numRunning (tr : List PoolEvent) : Int :=
  (tr.countP isStartEvent : Int) - (tr.countP isCompleteEvent : Int)

/-- The task index carried by a start event. -/
def startIdxOf : PoolEvent → Option Nat
  | .start i => some i
  | .complete _ => none

/-- The sequence of task indices in the order their execution started. -/
def startIndices (tr : List PoolEvent) : List Nat :=
  tr.filterMap startIdxOf

/-! ## JavaScript `Number(string)` coercion (ToNumber on strings)

`parseNumber` in src/src/metadata.js applies `Number(value)` followed by a
`Number.isFinite` filter; `parseTotalFromContentRange` applies `Number` to
a digit-only capture.  The coercion is modelled over exact rationals.
A string coerces via the `StringNumericLiteral` grammar: optional
whitespace, then an optionally signed decimal literal (with optional
fraction and exponent) or `Infinity`, or an unsigned `0x`/`0o`/`0b`
integer literal; the empty (or all-whitespace) string coerces to `0`; any
other string coerces to NaN. -/

/-- A JavaScript number as far as the probers inspect it: a finite exact
rational, an infinity, or NaN. -/
inductive JsNumber where
  | finite (val : ℚ)
  | posInf
  | negInf
  | nan
deriving DecidableEq, Repr

/-- Whitespace for JavaScript string trimming and for the regex class
`\s`: tab, line feed, vertical tab, form feed, carriage return, space,
no-break space, the Unicode space separators, the line and paragraph
separators, and the byte-order mark. -/
def isJsSpace (c : Char) : Bool :=
  c.toNat ∈ [9, 10, 11, 12, 13, 32, 160, 0x1680, 0x2000, 0x2001, 0x2002,
    0x2003, 0x2004, 0x2005, 0x2006, 0x2007, 0x2008, 0x2009, 0x200A,
    0x2028, 0x2029, 0x202F, 0x205F, 0x3000, 0xFEFF]

/-- The regex class `\d` and the grammar's `DecimalDigit`: exactly the
ASCII digits. -/
def isDigitChar (c : Char) : Bool :=
  48 ≤ c.toNat && c.toNat ≤ 57

/-- Numeric value of an ASCII digit. -/
def digitVal (c : Char) : ℕ := c.toNat - 48

/-- Value of a decimal digit string, most significant digit first. -/
def decDigitsVal (ds : List Char) : ℕ :=
  ds.foldl (fun acc c => acc * 10 + digitVal c) 0

/-- Hexadecimal digit test. -/
def isHexDigitChar (c : Char) : Bool :=
  (48 ≤ c.toNat && c.toNat ≤ 57) || (97 ≤ c.toNat && c.toNat ≤ 102) ||
    (65 ≤ c.toNat && c.toNat ≤ 70)

/-- Value of a hexadecimal digit. -/
def hexDigitVal (c : Char) : ℕ :=
  if 97 ≤ c.toNat then c.toNat - 87
  else if 65 ≤ c.toNat then c.toNat - 55
  else c.toNat - 48

/-- Value of a base-`b` digit string, most significant digit first. -/
def baseDigitsVal (b : ℕ) (ds : List Char) : ℕ :=
  ds.foldl (fun acc c => acc * b + hexDigitVal c) 0

/-- Strip leading and trailing JavaScript whitespace. -/
def trimJs (cs : List Char) : List Char :=
  ((cs.dropWhile isJsSpace).reverse.dropWhile isJsSpace).reverse

/-- Ten to a natural power, as an exact rational. -/
def tenPowNat : ℕ → ℚ
  | 0 => 1
  | n + 1 => 10 * tenPowNat n

/-- Ten to an integer power, as an exact rational. -/
def tenPow (e : Int) : ℚ :=
  match e with
  | .ofNat n => tenPowNat n
  | .negSucc n => 1 / tenPowNat (n + 1)

/-- Value of a fraction digit string placed after the decimal point. -/
def fracVal (ds : List Char) : ℚ :=
  (decDigitsVal ds : ℚ) / tenPowNat ds.length

/-- The float64 overflow boundary: under round-to-nearest-even, an exact
magnitude at or above `2^1024 - 2^970` rounds to an infinity, which is
how ToNumber saturates on large literals. -/
def fl64Overflow : ℕ := 2 ^ 1024 - 2 ^ 970

/-- Saturate an exactly computed conversion result to a JavaScript
number: magnitudes at or beyond the float64 overflow boundary become the
matching infinity.  Rounding of in-range magnitudes is not modelled; the
theorems below only evaluate values that float64 represents exactly. -/
def mkJsNumber (v : ℚ) : JsNumber :=
  if (fl64Overflow : ℚ) ≤ v then .posInf
  else if v ≤ -(fl64Overflow : ℚ) then .negInf
  else .finite v

/-- Parse the trailing `ExponentPart?` of a decimal literal; `none` when
the remaining characters are not a well-formed exponent (the whole string
must be consumed). -/
def parseExponentTail : List Char → Option Int
  | [] => some 0
  | e :: rest =>
    if e = 'e' ∨ e = 'E' then
      match rest with
      | '+' :: ds =>
        if ds ≠ [] ∧ ds.all isDigitChar then some (decDigitsVal ds) else none
      | '-' :: ds =>
        if ds ≠ [] ∧ ds.all isDigitChar then some (-(decDigitsVal ds : Int)) else none
      | ds =>
        if ds ≠ [] ∧ ds.all isDigitChar then some (decDigitsVal ds) else none
    else none

/-- Parse `StrUnsignedDecimalLiteral` without the `Infinity` production:
`DecimalDigits . DecimalDigits? ExponentPart?`,
`. DecimalDigits ExponentPart?` or `DecimalDigits ExponentPart?`. -/
def parseUnsignedDecBody (cs : List Char) : Option ℚ :=
  let intPart := cs.takeWhile isDigitChar
  let rest := cs.dropWhile isDigitChar
  if intPart = [] then
    match rest with
    | '.' :: rest2 =>
      let frac := rest2.takeWhile isDigitChar
      let rest3 := rest2.dropWhile isDigitChar
      if frac = [] then none
      else (parseExponentTail rest3).map (fun e => fracVal frac * tenPow e)
    | _ => none
  else
    match rest with
    | '.' :: rest2 =>
      let frac := rest2.takeWhile isDigitChar
      let rest3 := rest2.dropWhile isDigitChar
      (parseExponentTail rest3).map
        (fun e => ((decDigitsVal intPart : ℚ) + fracVal frac) * tenPow e)
    | _ => (parseExponentTail rest).map (fun e => (decDigitsVal intPart : ℚ) * tenPow e)

/-- Parse an optionally signed `StrDecimalLiteral`, including the
`Infinity` production. -/
def parseSignedDec (cs : List Char) : JsNumber :=
  let neg : Bool := cs.head? = some '-'
  let body := if cs.head? = some '+' ∨ cs.head? = some '-' then cs.tail else cs
  if body = "Infinity".data then
    if neg then .negInf else .posInf
  else
    match parseUnsignedDecBody body with
    | some q => mkJsNumber (if neg then -q else q)
    | none => .nan

/-- `Number(s)` for a string `s`. -/
def jsStrToNumber (s : String) : JsNumber :=
  let cs := trimJs s.data
  if cs = [] then .finite 0
  else if cs.head? = some '0' ∧ (cs.tail.head? = some 'x' ∨ cs.tail.head? = some 'X') then
    let rest := cs.tail.tail
    if rest ≠ [] ∧ rest.all isHexDigitChar then mkJsNumber (baseDigitsVal 16 rest)
    else .nan
  else if cs.head? = some '0' ∧ (cs.tail.head? = some 'o' ∨ cs.tail.head? = some 'O') then
    let rest := cs.tail.tail
    if rest ≠ [] ∧ rest.all (fun d => 48 ≤ d.toNat && d.toNat ≤ 55) then
      mkJsNumber (baseDigitsVal 8 rest)
    else .nan
  else if cs.head? = some '0' ∧ (cs.tail.head? = some 'b' ∨ cs.tail.head? = some 'B') then
    let rest := cs.tail.tail
    if rest ≠ [] ∧ rest.all (fun d => 48 ≤ d.toNat && d.toNat ≤ 49) then
      mkJsNumber (baseDigitsVal 2 rest)
    else .nan
  else parseSignedDec cs

/-! ## Metadata probers (src/src/metadata.js) -/

/-- The response data `getRemoteImageMetadata` inspects: the HTTP status
and the `content-length` / `content-range` headers (`headers.get` yields
`null` for an absent header, modelled as `none`). -/
structure HttpResponse where
  status : ℕ
  contentLength : Option String
  contentRange : Option String
deriving DecidableEq, Repr

/-- `Response.ok`: status in the 2xx success range. -/
def respOk (r : HttpResponse) : Bool :=
  200 ≤ r.status && r.status ≤ 299

/-- Outcome of one `fetchWithTimeout` call: a response, an abort by the
deadline timer (`error.name === 'AbortError'`), or another transport
failure with its message. -/
inductive FetchOutcome where
  | response (r : HttpResponse)
  | abortError
  | failure (msg : String)
deriving DecidableEq, Repr

/-- Outcome of `rangeRes.arrayBuffer()` followed by `imageSize(buffer)`:
the decode returns a width and height (each `none` when not a finite
number, folding the `Number.isFinite` checks into the model), or the
decode throws, or the body read itself rejects (with an abort or another
failure, caught by the surrounding `catch`). -/
inductive BodyOutcome where
  | decoded (width height : Option Int)
  | decodeThrow (msg : String)
  | readAbort
  | readFail (msg : String)
deriving DecidableEq, Repr

/-- The record both probers produce: `{ target, size, status, width,
height }`. -/
structure MetadataRecord where
  target : String
  size : Option ℚ
  status : String
  width : Option Int
  height : Option Int
deriving DecidableEq, Repr

/-- `statusMessages.join('; ') || 'Unknown'`: the join of the collected
tokens, with the falsy (empty) join replaced by `'Unknown'`. -/
def statusOf (msgs : List String) : String :=
  let j := String.intercalate "; " msgs
  if j = "" then "Unknown" else j

/-- `parseNumber`: `null` for a missing value, otherwise `Number(value)`
kept only when finite. -/
def parseNumber (value : Option String) : Option ℚ :=
  match value with
  | none => none
  | some s =>
    match jsStrToNumber s with
    | .finite q => some q
    | _ => none

/-- `parseTotalFromContentRange` as the number it returns: `null` for a
falsy header; otherwise match `/\/(\d+)\s*$/` — a slash, a nonempty digit
capture and trailing whitespace at the end of the string — and coerce the
capture with `Number`.  The guard is `Number.isNaN` only, and digits never
coerce to NaN, so the number is returned even when a capture of 309 or
more digits saturates to Infinity. -/
def parseTotalNumber (contentRange : Option String) : Option JsNumber :=
  match contentRange with
  | none => none
  | some s =>
    if s = "" then none
    else
      let afterWs := s.data.reverse.dropWhile isJsSpace
      let digitsRev := afterWs.takeWhile isDigitChar
      let beforeDigits := afterWs.dropWhile isDigitChar
      if digitsRev ≠ [] ∧ beforeDigits.head? = some '/' then
        some (mkJsNumber ((decDigitsVal digitsRev.reverse : ℕ) : ℚ))
      else none

/-- The finite fragment of `parseTotalNumber`, feeding the record model:
`MetadataRecord.size` holds exact rationals and cannot hold the Infinity
a 309-digit capture produces in the source, so the probe model maps that
(out-of-scope) case to an unset total; `parseTotalNumber` is the faithful
parser and the numeric-semantics theorem characterizes it, Infinity case
included. -/
def parseTotalFromContentRange (contentRange : Option String) : Option ℚ :=
  match parseTotalNumber contentRange with
  | some (.finite q) => some q
  | _ => none

/-- Phase 1 of the remote probe (the HEAD request): the tentative `size`
and the status tokens it contributes.  On a success status, push
`OK(HEAD)` and take `size` from a finite `content-length`; on another
status, push `HEAD <code>`; an abort pushes `HEAD timeout` and any other
failure pushes `HEAD failed: <message>`. -/
def headPhase (headOut : FetchOutcome) : Option ℚ × List String :=
  match headOut with
  | .response headRes =>
    if respOk headRes then
      (parseNumber headRes.contentLength, ["OK(HEAD)"])
    else
      (none, ["HEAD " ++ toString headRes.status])
  | .abortError => (none, ["HEAD timeout"])
  | .failure m => (none, ["HEAD failed: " ++ m])

/-- `getRemoteImageMetadata(fetchImpl, url, timeout)` as a function of the
two fetch outcomes and the body outcome.  After the HEAD phase, the ranged
GET: a non-success status pushes `GET <code>` and returns at once with the
phase-1 size and no dimensions; a success pushes `OK(Range)` for a 206 and
`OK(GET)` otherwise, then — only when `size` is still unset — takes `size`
from the `content-range` total, else from `content-length` when the status
is exactly 200; then the body is read and the image header decoded, two
finite dimensions setting `width`/`height` and anything else pushing a
resolution-failure token; an aborted GET pushes `GET timeout`, another
failure `GET failed: <message>`. -/
def getRemoteImageMetadata (url : String) (headOut getOut : FetchOutcome)
    (body : BodyOutcome) : MetadataRecord :=
  let phase1 := headPhase headOut
  let size0 := phase1.1
  let msgs0 := phase1.2
  match getOut with
  | .response rangeRes =>
    if respOk rangeRes then
      let msgs1 := msgs0 ++ [if rangeRes.status = 206 then "OK(Range)" else "OK(GET)"]
      let size1 :=
        if size0 = none then
          match parseTotalFromContentRange rangeRes.contentRange with
          | some total => some total
          | none =>
            if rangeRes.status = 200 ∧ parseNumber rangeRes.contentLength ≠ none then
              parseNumber rangeRes.contentLength
            else none
        else size0
      match body with
      | .decoded (some w) (some h) =>
        { target := url, size := size1, status := statusOf msgs1,
          width := some w, height := some h }
      | .decoded _ _ =>
        { target := url, size := size1,
          status := statusOf (msgs1 ++ ["Failed to parse resolution"]),
          width := none, height := none }
      | .decodeThrow m =>
        { target := url, size := size1,
          status := statusOf (msgs1 ++ ["Failed to parse resolution: " ++ m]),
          width := none, height := none }
      | .readAbort =>
        { target := url, size := size1, status := statusOf (msgs1 ++ ["GET timeout"]),
          width := none, height := none }
      | .readFail m =>
        { target := url, size := size1,
          status := statusOf (msgs1 ++ ["GET failed: " ++ m]),
          width := none, height := none }
    else
      { target := url, size := size0,
        status := statusOf (msgs0 ++ ["GET " ++ toString rangeRes.status]),
        width := none, height := none }
  | .abortError =>
    { target := url, size := size0, status := statusOf (msgs0 ++ ["GET timeout"]),
      width := none, height := none }
  | .failure m =>
    { target := url, size := size0,
      status := statusOf (msgs0 ++ ["GET failed: " ++ m]),
      width := none, height := none }

/-- Outcome of `fs.promises.stat`: success with the `isFile()` flag and
`stat.size`, a missing path (`error.code === 'ENOENT'`), or another
filesystem error with its message. -/
inductive StatOutcome where
  | statDone (isFile : Bool) (size : ℕ)
  | enoent
  | statErr (msg : String)
deriving DecidableEq, Repr

/-- Outcome of `imageSize(absolutePath)` for the local probe. -/
inductive LocalDecode where
  | decoded (width height : Option Int)
  | decodeThrow (msg : String)
deriving DecidableEq, Repr

/-- `getLocalImageMetadata(absolutePath)` as a function of the stat and
decode outcomes (`relTarget` is the path made relative to the working
directory).  A non-file or failed stat returns early with the matching
token and no size; otherwise `size` is the exact byte length, the header
decode fills both dimensions or pushes a resolution-failure token, and an
empty token list becomes `OK(file)`. -/
def getLocalImageMetadata (relTarget : String) (stat : StatOutcome)
    (decode : LocalDecode) : MetadataRecord :=
  match stat with
  | .statDone false _ =>
    { target := relTarget, size := none, status := statusOf ["Not a file"],
      width := none, height := none }
  | .enoent =>
    { target := relTarget, size := none, status := statusOf ["File not found"],
      width := none, height := none }
  | .statErr m =>
    { target := relTarget, size := none,
      status := statusOf ["File access failed: " ++ m],
      width := none, height := none }
  | .statDone true sz =>
    match decode with
    | .decoded (some w) (some h) =>
      { target := relTarget, size := some (sz : ℚ), status := statusOf ["OK(file)"],
        width := some w, height := some h }
    | .decoded _ _ =>
      { target := relTarget, size := some (sz : ℚ),
        status := statusOf ["Failed to parse resolution"],
        width := none, height := none }
    | .decodeThrow m =>
      { target := relTarget, size := some (sz : ℚ),
        status := statusOf ["Failed to parse resolution: " ++ m],
        width := none, height := none }

/-! ## Report aggregation and sort (`run` in src/unnamed/part_002) -/

/-- A report row as the sort sees it: the record's display target, its
`size` (a number or `null`), and the decoration added before sorting. -/
structure ReportRow where
  target : String
  size : Option ℚ
  occurrences : ℕ
deriving DecidableEq, Repr

/-- The comparator's key: `typeof size === 'number' ? size : -1`. -/
def sortKey (r : ReportRow) : ℚ :=
  match r.size with
  | some q => q
  | none => -1

/-- `Array.prototype.sort` keeps `a` before `b` exactly when the
comparator `(a, b) => sizeB - sizeA` is nonpositive. -/
def rowLe (a b : ReportRow) : Bool :=
  decide (sortKey b ≤ sortKey a)

/-- The sort in `run`: JavaScript's sort is a stable comparator sort,
embedded as a stable merge sort under `rowLe`. -/
def sortRows (rows : List ReportRow) : List ReportRow :=
  rows.mergeSort rowLe

/-! ## Auxiliary observations used by the statements -/

/-- Whether a promise outcome is a fulfilment. -/
def isOkResult {ε β : Type} : Except ε β → Bool
  | .ok _ => true
  | .error _ => false

/-- Whether `pat` occurs at the front of `cs`. -/
def startsWithChars : List Char → List Char → Bool
  | [], _ => true
  | _ :: _, [] => false
  | p :: ps, c :: cs => p = c && startsWithChars ps cs

/-- Whether `pat` occurs anywhere inside `cs`. -/
def hasSubChars (pat : List Char) : List Char → Bool
  | [] => pat.isEmpty
  | c :: cs => startsWithChars pat (c :: cs) || hasSubChars pat cs

/-- Whether the token `tok` occurs inside the status string `s`. -/
def hasToken (s tok : String) : Bool :=
  hasSubChars tok.data s.data

/-- All prefixes of the trace keep the number of running tasks at or
below `c`. -/
def boundedTrace (c : Int) (tr : List PoolEvent) : Prop :=
  ∀ p q : List PoolEvent, tr = p ++ q → numRunning p ≤ c

/-! ## Concrete fixtures for the witnesses and counterexamples -/

/-- A worker that throws for task `1` and returns the task itself
otherwise. -/
def throwingWorker (n : ℕ) : Except String ℕ :=
  if n = 1 then .error "boom" else .ok n

/-- Remote probe run: HEAD times out, the ranged GET answers a full 200
carrying `content-length: 2048`, the image header fails to decode. -/
def c4probe : MetadataRecord :=
  getRemoteImageMetadata "u" .abortError
    (.response ⟨200, some "2048", none⟩) (.decodeThrow "bad")

/-- Remote probe run: both HEAD and GET answer 404. -/
def c5probe : MetadataRecord :=
  getRemoteImageMetadata "u" (.response ⟨404, none, none⟩)
    (.response ⟨404, none, none⟩) (.decodeThrow "x")

/-- Remote probe run: a successful HEAD carries `content-length: 100`
while the successful 206 range response carries a disagreeing
`content-range` total of `999` and `content-length: 65536`. -/
def c6probe : MetadataRecord :=
  getRemoteImageMetadata "u" (.response ⟨200, some "100", none⟩)
    (.response ⟨206, some "65536", some "bytes 0-65535/999"⟩) (.decodeThrow "m")

/-- Remote probe run: a failed HEAD, then a successful 206 range response
whose `content-range` total `999` disagrees with its
`content-length: 65536`. -/
def c6okProbe : MetadataRecord :=
  getRemoteImageMetadata "u" (.response ⟨404, none, none⟩)
    (.response ⟨206, some "65536", some "bytes 0-65535/999"⟩) (.decodeThrow "m")

/-- Remote probe run: a successful HEAD with `content-length: 1024`
followed by a successful full 200 GET carrying disagreeing size headers
and a decodable 3-by-4 header. -/
def c10probe : MetadataRecord :=
  getRemoteImageMetadata "u" (.response ⟨200, some "1024", none⟩)
    (.response ⟨200, some "65536", some "bytes 0-65535/999"⟩)
    (.decoded (some 3) (some 4))

/-- Report rows with sizes 100, unknown, 500 in discovery order. -/
def exRows : List ReportRow :=
  [⟨"a", some 100, 1⟩, ⟨"b", none, 1⟩, ⟨"c", some 500, 1⟩]

/-- A 310-digit header value, `1` followed by 309 zeros: its value
`10 ^ 309` exceeds the float64 overflow boundary. -/
def hugeDigits : String := ⟨'1' :: List.replicate 309 '0'⟩

/-- A content-range value whose total capture is `hugeDigits`. -/
def hugeContentRange : String := ⟨'/' :: '1' :: List.replicate 309 '0'⟩

/-! ## Scheduler lemmas -/

theorem promiseAll_map_ok {ε β γ : Type} (f : γ → β) (l : List γ) :
    promiseAll (l.map (fun a => (Except.ok (f a) : Except ε β))) = .ok (l.map f) := by
  induction l with
  | nil => rfl
  | cons a t ih => simp [promiseAll, ih, Except.map]

theorem poolGo_ok {α ε β : Type} (worker : α → Except ε β) (c : Int)
    (rest : List α) :
    ∀ (idx : Nat) (sched : List Nat) (results : List (Except ε β))
      (executing : List (Nat × Except ε β)) (tr : List PoolEvent),
      (∀ a ∈ rest, isOkResult (worker a) = true) →
      (∀ pr ∈ executing, isOkResult pr.2 = true) →
      (poolGo worker c rest idx sched results executing tr).1 =
        .ok (results ++ rest.map worker) := by
  induction rest with
  | nil =>
    intro idx sched results executing tr _ _
    simp [poolGo]
  | cons item rest ih =>
    intro idx sched results executing tr hw he
    have hitem : isOkResult (worker item) = true := hw item (by simp)
    have hrest : ∀ a ∈ rest, isOkResult (worker a) = true :=
      fun a ha => hw a (by simp [ha])
    have hepush : ∀ pr ∈ executing ++ [(idx, worker item)], isOkResult pr.2 = true := by
      intro pr hpr
      rcases List.mem_append.mp hpr with hm | hm
      · exact he _ hm
      · simp only [List.mem_singleton] at hm
        subst hm
        simpa using hitem
    simp only [poolGo]
    split
    · split
      · split
        · rename_i heq
          exfalso
          have hlen : 0 < (executing ++ [(idx, worker item)]).length := by simp
          have hpos := Nat.mod_lt (sched.headD 0) hlen
          rw [List.getElem?_eq_none_iff] at heq
          omega
        · rename_i j e heq
          exfalso
          have hmem := List.getElem?_mem heq
          have := hepush _ hmem
          simp [isOkResult] at this
        · rename_i j b heq
          have herase : ∀ pr ∈ (executing ++ [(idx, worker item)]).eraseIdx
              (sched.headD 0 % (executing ++ [(idx, worker item)]).length),
              isOkResult pr.2 = true :=
            fun pr hpr => hepush _ (List.mem_of_mem_eraseIdx hpr)
          rw [ih _ _ _ _ _ hrest herase]
          simp
      · rw [ih _ _ _ _ _ hrest hepush]
        simp
    · rw [ih _ _ _ _ _ hrest he]
      simp

theorem poolGo_results {α ε β : Type} (worker : α → Except ε β) (c : Int)
    (rest : List α) :
    ∀ (idx : Nat) (sched : List Nat) (results : List (Except ε β))
      (executing : List (Nat × Except ε β)) (tr : List PoolEvent)
      (res : List (Except ε β)),
      (poolGo worker c rest idx sched results executing tr).1 = .ok res →
      res = results ++ rest.map worker := by
  induction rest with
  | nil =>
    intro idx sched results executing tr res h
    simp only [poolGo] at h
    injection h with h
    simp [h.symm]
  | cons item rest ih =>
    intro idx sched results executing tr res h
    simp only [poolGo] at h
    split at h
    · split at h
      · split at h
        · rename_i heq
          exfalso
          have hlen : 0 < (executing ++ [(idx, worker item)]).length := by simp
          have hpos := Nat.mod_lt (sched.headD 0) hlen
          rw [List.getElem?_eq_none_iff] at heq
          omega
        · exact absurd h (by simp)
        · have := ih _ _ _ _ _ _ h
          simp only [this, List.map_cons]
          simp
      · have := ih _ _ _ _ _ _ h
        simp only [this, List.map_cons]
        simp
    · have := ih _ _ _ _ _ _ h
      simp only [this, List.map_cons]
      simp

/-- C1: for every task sequence, every limit at least one, and every
completion schedule, the pool fulfils with exactly the per-index worker
results: the output has the input's length and the entry at index `i` is
the worker's result for the task at index `i`. -/
theorem promisePool_pure_aligned {α ε β : Type} (f : α → β) (items : List α)
    (c : Int) (sched : List Nat) (hc : 1 ≤ c) :
    (promisePool items c (fun a => (Except.ok (f a) : Except ε β)) sched).1 =
      .ok (items.map f) ∧
    ∀ res : List β,
      (promisePool items c (fun a => (Except.ok (f a) : Except ε β)) sched).1 =
        .ok res →
      res.length = items.length ∧ ∀ i : Nat, res[i]? = (items[i]?).map f := by
  have h1 : (promisePool items c (fun a => (Except.ok (f a) : Except ε β)) sched).1 =
      .ok (items.map f) := by
    show ((poolGo _ c items 0 sched [] [] []).1.bind promiseAll) = _
    rw [poolGo_ok (fun a => (Except.ok (f a) : Except ε β)) c items 0 sched [] [] []
      (fun a _ => rfl) (fun pr h => absurd h (List.not_mem_nil _))]
    show Except.bind (.ok _) promiseAll = _
    simp only [Except.bind, List.nil_append]
    exact promiseAll_map_ok f items
  refine ⟨h1, fun res hres => ?_⟩
  rw [h1] at hres
  injection hres with hres
  subst hres
  exact ⟨by simp, fun i => by simp⟩

/-- C1 witness: a four-task pool with limit 2 and a nontrivial completion
schedule returns the per-task results in input order. -/
theorem promisePool_pure_aligned_witness :
    (1 : Int) ≤ 2 ∧
    (promisePool [0, 1, 2, 3] 2
      (fun n => (Except.ok (n * 10) : Except String ℕ)) [0, 1, 0]).1 =
      .ok [0, 10, 20, 30] := by
  refine ⟨by decide, ?_⟩
  have h := (promisePool_pure_aligned (ε := String) (fun n : ℕ => n * 10)
    [0, 1, 2, 3] 2 [0, 1, 0] (by decide)).1
  exact h.trans rfl

theorem promiseAll_ok_of_all_ok {ε β : Type} (l : List (Except ε β)) :
    (∀ x ∈ l, isOkResult x = true) → ∃ bs, promiseAll l = .ok bs := by
  induction l with
  | nil => exact fun _ => ⟨[], rfl⟩
  | cons x t ih =>
    intro h
    rcases x with e | b
    · have := h (Except.error e) (List.mem_cons_self _ _)
      simp [isOkResult] at this
    · obtain ⟨bs, hbs⟩ := ih (fun y hy => h y (by simp [hy]))
      exact ⟨b :: bs, by simp [promiseAll, hbs, Except.map]⟩

theorem promiseAll_error_of_mem {ε β : Type} (l : List (Except ε β)) (e : ε) :
    Except.error e ∈ l → ∃ e2, promiseAll l = .error e2 := by
  induction l with
  | nil => intro h; exact absurd h (List.not_mem_nil _)
  | cons x t ih =>
    intro h
    rcases x with e3 | b
    · exact ⟨e3, rfl⟩
    · rcases List.mem_cons.mp h with h2 | h2
      · exact absurd h2 (by simp)
      · obtain ⟨e2, he2⟩ := ih h2
        exact ⟨e2, by simp [promiseAll, he2, Except.map]⟩

/-- C2 (amended): a worker that throws is fatal to the whole pool, not
only to its own slot — the pool's returned promise rejects exactly when
the worker throws for some task, and per-slot results exist only in the
fully fulfilled case. -/
theorem promisePool_throw_is_pool_fatal {α ε β : Type} (items : List α) (c : Int)
    (worker : α → Except ε β) (sched : List Nat) :
    (∃ e, (promisePool items c worker sched).1 = .error e) ↔
      ∃ a ∈ items, ∃ e, worker a = .error e := by
  constructor
  · rintro ⟨e, he⟩
    by_contra hno
    push_neg at hno
    have hok : ∀ a ∈ items, isOkResult (worker a) = true := by
      intro a ha
      rcases hw : worker a with e2 | b
      · exact absurd hw (hno a ha e2)
      · rfl
    have h1 := poolGo_ok worker c items 0 sched [] [] [] hok
      (fun pr h => absurd h (List.not_mem_nil _))
    have h2 : (promisePool items c worker sched).1 =
        promiseAll (items.map worker) := by
      show ((poolGo _ c items 0 sched [] [] []).1.bind promiseAll) = _
      rw [h1]
      simp [Except.bind]
    obtain ⟨bs, hbs⟩ := promiseAll_ok_of_all_ok (items.map worker) (by
      intro x hx
      obtain ⟨a, ha, rfl⟩ := List.mem_map.mp hx
      exact hok a ha)
    rw [h2, hbs] at he
    exact absurd he (by simp)
  · rintro ⟨a, ha, e, hae⟩
    rcases hp : (poolGo worker c items 0 sched [] [] []).1 with e2 | res
    · refine ⟨e2, ?_⟩
      show ((poolGo _ c items 0 sched [] [] []).1.bind promiseAll) = _
      rw [hp]
      rfl
    · have hres := poolGo_results worker c items 0 sched [] [] [] res hp
      have hmem : Except.error e ∈ res := by
        rw [hres]
        simp only [List.nil_append]
        exact List.mem_map.mpr ⟨a, ha, hae⟩
      obtain ⟨e2, he2⟩ := promiseAll_error_of_mem res e hmem
      refine ⟨e2, ?_⟩
      show ((poolGo _ c items 0 sched [] [] []).1.bind promiseAll) = _
      rw [hp]
      show Except.bind (.ok res) promiseAll = _
      simpa [Except.bind] using he2

/-- C2 counterexample: with tasks `[0, 1, 2]`, limit `2` and a worker
that throws for task `1`, the pool itself rejects — it does not yield a
per-slot result sequence for the remaining tasks. -/
theorem promisePool_throw_aborts_pool :
    (promisePool [0, 1, 2] 2 throwingWorker [0]).1 = .error "boom" := by
  rfl

/-- C2 witness: the amended fatality equivalence instantiated on the
throwing worker. -/
theorem promisePool_throw_is_pool_fatal_witness :
    ∃ e, (promisePool [0, 1, 2] 2 throwingWorker [0]).1 = .error e :=
  (promisePool_throw_is_pool_fatal [0, 1, 2] 2 throwingWorker [0]).mpr
    ⟨1, by decide, "boom", rfl⟩

theorem numRunning_append (a b : List PoolEvent) :
    numRunning (a ++ b) = numRunning a + numRunning b := by
  simp only [numRunning, List.countP_append]
  push_cast
  ring

theorem numRunning_start (i : ℕ) : numRunning [PoolEvent.start i] = 1 := by
  simp [numRunning, List.countP_cons, isStartEvent, isCompleteEvent]

theorem numRunning_complete (i : ℕ) : numRunning [PoolEvent.complete i] = -1 := by
  simp [numRunning, List.countP_cons, isStartEvent, isCompleteEvent]

theorem append_singleton_split {γ : Type} (l : List γ) (x : γ) (p q : List γ)
    (h : l ++ [x] = p ++ q) :
    (p = l ++ [x] ∧ q = []) ∨ ∃ q2, l = p ++ q2 := by
  rcases List.eq_nil_or_concat q with rfl | ⟨q2, y, rfl⟩
  · left
    have h2 := h
    rw [List.append_nil] at h2
    exact ⟨h2.symm, rfl⟩
  · right
    have h2 : l ++ [x] = (p ++ q2) ++ [y] := by
      rw [h]
      simp [List.concat_eq_append, List.append_assoc]
    have h3 := List.append_inj' h2 rfl
    exact ⟨q2, h3.1⟩

theorem boundedTrace_nil (c : Int) (hc : 0 ≤ c) : boundedTrace c [] := by
  intro p q h
  rcases List.append_eq_nil.mp h.symm with ⟨rfl, rfl⟩
  simpa [numRunning] using hc

theorem boundedTrace_snoc {c : Int} {tr : List PoolEvent} {e : PoolEvent}
    (h1 : boundedTrace c tr) (h2 : numRunning (tr ++ [e]) ≤ c) :
    boundedTrace c (tr ++ [e]) := by
  intro p q h
  rcases append_singleton_split tr e p q h with ⟨hp, _⟩ | ⟨q2, hq⟩
  · subst hp
    exact h2
  · exact h1 p q2 hq

theorem poolGo_bound {α ε β : Type} (worker : α → Except ε β) (c : Int) (hc : 0 < c)
    (rest : List α) :
    ∀ (idx : Nat) (sched : List Nat) (results : List (Except ε β))
      (executing : List (Nat × Except ε β)) (tr : List PoolEvent),
      boundedTrace c tr →
      numRunning tr = (executing.length : Int) →
      (executing.length : Int) < c →
      boundedTrace c (poolGo worker c rest idx sched results executing tr).2 := by
  induction rest with
  | nil =>
    intro idx sched results executing tr htr _ _
    simpa [poolGo] using htr
  | cons item rest ih =>
    intro idx sched results executing tr htr hn hb
    have hn1 : numRunning (tr ++ [PoolEvent.start idx]) = (executing.length : Int) + 1 := by
      rw [numRunning_append, hn, numRunning_start]
    have htr1 : boundedTrace c (tr ++ [PoolEvent.start idx]) :=
      boundedTrace_snoc htr (by omega)
    simp only [poolGo]
    rw [if_pos hc]
    split
    · rename_i hlen
      split
      · exact htr1
      · rename_i j e heq
        refine boundedTrace_snoc htr1 ?_
        rw [numRunning_append, hn1, numRunning_complete]
        omega
      · rename_i j b heq
        have hpos : sched.headD 0 % (executing ++ [(idx, worker item)]).length <
            (executing ++ [(idx, worker item)]).length :=
          Nat.mod_lt _ (by simp)
        apply ih
        · refine boundedTrace_snoc htr1 ?_
          rw [numRunning_append, hn1, numRunning_complete]
          omega
        · rw [numRunning_append, hn1, numRunning_complete,
            List.length_eraseIdx_of_lt hpos]
          simp only [List.length_append, List.length_singleton]
          push_cast
          omega
        · rw [List.length_eraseIdx_of_lt hpos]
          simp only [List.length_append, List.length_singleton]
          push_cast
          omega
    · rename_i hlen
      apply ih
      · exact htr1
      · rw [hn1]
        simp only [List.length_append, List.length_singleton]
        push_cast
        ring
      · simp only [List.length_append, List.length_singleton] at hlen ⊢
        push_cast at hlen ⊢
        omega

theorem poolGo_startIndices {α ε β : Type} (worker : α → Except ε β) (c : Int)
    (rest : List α) :
    ∀ (idx : Nat) (sched : List Nat) (results : List (Except ε β))
      (executing : List (Nat × Except ε β)) (tr : List PoolEvent),
      (∀ a ∈ rest, isOkResult (worker a) = true) →
      (∀ pr ∈ executing, isOkResult pr.2 = true) →
      startIndices (poolGo worker c rest idx sched results executing tr).2 =
        startIndices tr ++ List.range' idx rest.length := by
  induction rest with
  | nil =>
    intro idx sched results executing tr _ _
    simp [poolGo, List.range']
  | cons item rest ih =>
    intro idx sched results executing tr hw he
    have hitem : isOkResult (worker item) = true := hw item (by simp)
    have hrest : ∀ a ∈ rest, isOkResult (worker a) = true :=
      fun a ha => hw a (by simp [ha])
    have hepush : ∀ pr ∈ executing ++ [(idx, worker item)], isOkResult pr.2 = true := by
      intro pr hpr
      rcases List.mem_append.mp hpr with hm | hm
      · exact he _ hm
      · simp only [List.mem_singleton] at hm
        subst hm
        simpa using hitem
    simp only [poolGo]
    split
    · split
      · split
        · rename_i heq
          exfalso
          have hlen0 : 0 < (executing ++ [(idx, worker item)]).length := by simp
          have hpos := Nat.mod_lt (sched.headD 0) hlen0
          rw [List.getElem?_eq_none_iff] at heq
          omega
        · rename_i j e heq
          exfalso
          have := hepush _ (List.getElem?_mem heq)
          simp [isOkResult] at this
        · rename_i j b heq
          rw [ih _ _ _ _ _ hrest
            (fun pr hpr => hepush _ (List.mem_of_mem_eraseIdx hpr))]
          simp [startIndices, startIdxOf, List.filterMap_append,
            List.filterMap_cons, List.length_cons, List.range'_succ,
            List.append_assoc]
      · rw [ih _ _ _ _ _ hrest hepush]
        simp [startIndices, startIdxOf, List.filterMap_append,
          List.filterMap_cons, List.length_cons, List.range'_succ,
          List.append_assoc]
    · rw [ih _ _ _ _ _ hrest he]
      simp [startIndices, startIdxOf, List.filterMap_append,
        List.filterMap_cons, List.length_cons, List.range'_succ,
        List.append_assoc]

/-- C3: for every task sequence, every limit at least one, and every
completion schedule, at every instant of the run — every prefix of the
event trace — the number of simultaneously running tasks never exceeds
the limit, and tasks are started eagerly in input order, a new start being
delayed behind a completion whenever starting would exceed the limit. -/
theorem promisePool_bounded_concurrency {α ε β : Type} (f : α → β) (items : List α)
    (c : Int) (sched : List Nat) (hc : 1 ≤ c) :
    (∀ p q : List PoolEvent,
      (promisePool items c (fun a => (Except.ok (f a) : Except ε β)) sched).2 =
        p ++ q →
      numRunning p ≤ c) ∧
    startIndices
        (promisePool items c (fun a => (Except.ok (f a) : Except ε β)) sched).2 =
      List.range items.length := by
  constructor
  · exact poolGo_bound (fun a => (Except.ok (f a) : Except ε β)) c (by omega) items
      0 sched [] [] [] (boundedTrace_nil c (by omega)) (by simp [numRunning])
      (by simpa using hc)
  · show startIndices
        (poolGo (fun a => (Except.ok (f a) : Except ε β)) c items 0 sched [] [] []).2 = _
    rw [poolGo_startIndices (fun a => (Except.ok (f a) : Except ε β)) c items 0 sched
      [] [] [] (fun a _ => rfl) (fun pr h => absurd h (List.not_mem_nil _))]
    simp [startIndices, List.range_eq_range']

/-- C3 witness: the bound and the eager start order instantiated on a
four-task pool with limit 2, at the instant when two tasks have started
and none has completed. -/
theorem promisePool_bounded_concurrency_witness :
    numRunning [PoolEvent.start 0, PoolEvent.start 1] ≤ 2 ∧
    startIndices (promisePool [0, 1, 2, 3] 2
      (fun n => (Except.ok (n * 10) : Except String ℕ)) [0, 1, 0]).2 =
      List.range 4 := by
  have h := promisePool_bounded_concurrency (ε := String) (fun n : ℕ => n * 10)
    [0, 1, 2, 3] 2 [0, 1, 0] (by decide)
  exact ⟨h.1 [PoolEvent.start 0, PoolEvent.start 1]
    [PoolEvent.complete 0, PoolEvent.start 2, PoolEvent.complete 2,
      PoolEvent.start 3, PoolEvent.complete 1] (by decide), h.2⟩

/-! ## Header parsing lemmas -/

theorem digit_not_space {c : Char} (h : isDigitChar c = true) : isJsSpace c = false := by
  have h2 : 48 ≤ c.toNat ∧ c.toNat ≤ 57 := by simpa [isDigitChar] using h
  simp only [isJsSpace, decide_eq_false_iff_not, List.mem_cons, List.not_mem_nil,
    or_false]
  omega

theorem dropWhile_eq_self_of {p : Char → Bool} (l : List Char)
    (h : ∀ a ∈ l, p a = false) : l.dropWhile p = l := by
  cases l with
  | nil => rfl
  | cons a t => simp [List.dropWhile_cons, h a (List.mem_cons_self _ _)]

theorem takeWhile_eq_self_of {p : Char → Bool} (l : List Char)
    (h : ∀ a ∈ l, p a = true) : l.takeWhile p = l ∧ l.dropWhile p = [] := by
  induction l with
  | nil => exact ⟨rfl, rfl⟩
  | cons a t ih =>
    have ha := h a (List.mem_cons_self _ _)
    have iht := ih (fun x hx => h x (List.mem_cons_of_mem _ hx))
    simp [List.takeWhile_cons, List.dropWhile_cons, ha, iht.1, iht.2]

theorem trimJs_of_nonspace (l : List Char) (h1 : ∀ a ∈ l, isJsSpace a = false) :
    trimJs l = l := by
  unfold trimJs
  rw [dropWhile_eq_self_of l h1,
    dropWhile_eq_self_of l.reverse (fun a ha => h1 a (List.mem_reverse.mp ha)),
    List.reverse_reverse]

theorem trimJs_of_digits (l : List Char) (h : ∀ a ∈ l, isDigitChar a = true) :
    trimJs l = l :=
  trimJs_of_nonspace l (fun a ha => digit_not_space (h a ha))

theorem parseUnsignedDecBody_digits (d : Char) (ds : List Char)
    (h2 : ∀ ch ∈ d :: ds, isDigitChar ch = true) :
    parseUnsignedDecBody (d :: ds) = some ((decDigitsVal (d :: ds) : ℕ) : ℚ) := by
  have htake := takeWhile_eq_self_of (p := isDigitChar) (d :: ds) h2
  simp only [parseUnsignedDecBody, htake.1, htake.2]
  rw [if_neg (show ¬(d :: ds = []) by simp)]
  rw [show parseExponentTail [] = some 0 from rfl, Option.map_some']
  rw [show tenPow 0 = 1 from rfl, mul_one]

theorem jsStrToNumber_digits (s : String) (h1 : s.data ≠ [])
    (h2 : ∀ ch ∈ s.data, isDigitChar ch = true) :
    jsStrToNumber s = mkJsNumber ((decDigitsVal s.data : ℕ) : ℚ) := by
  obtain ⟨d, ds, hds⟩ : ∃ d ds, s.data = d :: ds := by
    cases hc : s.data with
    | nil => exact absurd hc h1
    | cons d ds => exact ⟨d, ds, rfl⟩
  simp only [jsStrToNumber]
  rw [trimJs_of_digits s.data h2, hds]
  rw [hds] at h2
  have hd : isDigitChar d = true := h2 d (List.mem_cons_self _ _)
  have htail : ∀ c : Char, ds.head? = some c → isDigitChar c = true := by
    intro c hc
    exact h2 c (List.mem_cons_of_mem _ (List.mem_of_mem_head? hc))
  have hxX : ¬((d :: ds).head? = some '0' ∧
      ((d :: ds).tail.head? = some 'x' ∨ (d :: ds).tail.head? = some 'X')) := by
    rintro ⟨-, hx | hx⟩ <;> simp only [List.tail_cons] at hx <;>
      exact absurd (htail _ hx) (by decide)
  have hoO : ¬((d :: ds).head? = some '0' ∧
      ((d :: ds).tail.head? = some 'o' ∨ (d :: ds).tail.head? = some 'O')) := by
    rintro ⟨-, hx | hx⟩ <;> simp only [List.tail_cons] at hx <;>
      exact absurd (htail _ hx) (by decide)
  have hbB : ¬((d :: ds).head? = some '0' ∧
      ((d :: ds).tail.head? = some 'b' ∨ (d :: ds).tail.head? = some 'B')) := by
    rintro ⟨-, hx | hx⟩ <;> simp only [List.tail_cons] at hx <;>
      exact absurd (htail _ hx) (by decide)
  rw [if_neg (show ¬(d :: ds = []) by simp), if_neg hxX, if_neg hoO, if_neg hbB]
  simp only [parseSignedDec, List.head?_cons]
  have hplus : ¬(some d = some '+' ∨ some d = some '-') := by
    rintro (h | h) <;> rw [Option.some.injEq] at h <;> subst h <;>
      exact absurd hd (by decide)
  have hnd : decide (some d = some '-') = false :=
    decide_eq_false (by
      intro h
      rw [Option.some.injEq] at h
      subst h
      exact absurd hd (by decide))
  rw [if_neg hplus]
  simp only [hnd, Bool.false_eq_true, if_false]
  have hinf : (d :: ds) ≠ "Infinity".data := by
    intro h
    have h4 := congrArg List.head? h
    rw [List.head?_cons, show ("Infinity".data.head? = some 'I') from rfl,
      Option.some.injEq] at h4
    subst h4
    exact absurd hd (by decide)
  rw [if_neg hinf, parseUnsignedDecBody_digits d ds h2]

theorem jsStrToNumber_neg_digits (s : String) (h1 : s.data ≠ [])
    (h2 : ∀ ch ∈ s.data, isDigitChar ch = true) :
    jsStrToNumber ⟨'-' :: s.data⟩ = mkJsNumber (-((decDigitsVal s.data : ℕ) : ℚ)) := by
  obtain ⟨d, ds, hds⟩ : ∃ d ds, s.data = d :: ds := by
    cases hc : s.data with
    | nil => exact absurd hc h1
    | cons d ds => exact ⟨d, ds, rfl⟩
  have hns : ∀ a ∈ '-' :: s.data, isJsSpace a = false := by
    intro a ha
    rcases List.mem_cons.mp ha with rfl | ha
    · decide
    · exact digit_not_space (h2 a ha)
  simp only [jsStrToNumber]
  rw [trimJs_of_nonspace _ hns, hds]
  rw [hds] at h2
  have hd : isDigitChar d = true := h2 d (List.mem_cons_self _ _)
  have hno0 : ∀ P : Prop, ¬(('-' :: d :: ds).head? = some '0' ∧ P) := by
    intro P h
    rcases h with ⟨hh, -⟩
    simp only [List.head?_cons, Option.some.injEq] at hh
    exact absurd hh (by decide)
  rw [if_neg (show ¬('-' :: d :: ds = []) by simp), if_neg (hno0 _),
    if_neg (hno0 _), if_neg (hno0 _)]
  simp only [parseSignedDec, List.head?_cons]
  simp only [or_true, decide_True, eq_self_iff_true, if_true, List.tail_cons]
  have hinf : (d :: ds) ≠ "Infinity".data := by
    intro h
    have h4 := congrArg List.head? h
    rw [List.head?_cons, show ("Infinity".data.head? = some 'I') from rfl,
      Option.some.injEq] at h4
    subst h4
    exact absurd hd (by decide)
  rw [if_neg hinf, parseUnsignedDecBody_digits d ds h2]

theorem foldl_digits_lt :
    ∀ (ds : List Char), (∀ c ∈ ds, isDigitChar c = true) → ∀ acc : ℕ,
      List.foldl (fun a c => a * 10 + digitVal c) acc ds < (acc + 1) * 10 ^ ds.length
  | [], _, acc => by simpa using Nat.lt_succ_self acc
  | c :: t, h, acc => by
    have hc : digitVal c ≤ 9 := by
      have h2 := h c (List.mem_cons_self _ _)
      simp only [isDigitChar, Bool.and_eq_true, decide_eq_true_eq] at h2
      simp only [digitVal]
      omega
    have iht := foldl_digits_lt t (fun x hx => h x (List.mem_cons_of_mem _ hx))
      (acc * 10 + digitVal c)
    have hstep : (acc * 10 + digitVal c + 1) * 10 ^ t.length ≤
        (acc + 1) * 10 ^ (t.length + 1) := by
      have hlin : acc * 10 + digitVal c + 1 ≤ (acc + 1) * 10 := by omega
      calc (acc * 10 + digitVal c + 1) * 10 ^ t.length
          ≤ ((acc + 1) * 10) * 10 ^ t.length := Nat.mul_le_mul_right _ hlin
        _ = (acc + 1) * 10 ^ (t.length + 1) := by ring
    simp only [List.foldl_cons, List.length_cons]
    exact lt_of_lt_of_le iht hstep

theorem decDigitsVal_lt (ds : List Char) (h : ∀ c ∈ ds, isDigitChar c = true) :
    decDigitsVal ds < 10 ^ ds.length := by
  have hgen := foldl_digits_lt ds h 0
  simpa [decDigitsVal] using hgen

theorem fl64Overflow_pos : 0 < fl64Overflow := by decide

theorem pow15_lt_fl64 : (10 : ℕ) ^ 15 < fl64Overflow := by decide

theorem mkJsNumber_small {v : ℚ} (h1 : -((fl64Overflow : ℕ) : ℚ) < v)
    (h2 : v < ((fl64Overflow : ℕ) : ℚ)) : mkJsNumber v = .finite v := by
  unfold mkJsNumber
  rw [if_neg (not_le.mpr h2), if_neg (not_le.mpr h1)]

theorem mkJsNumber_natCast (n : ℕ) :
    ((n : ℚ) < (fl64Overflow : ℚ) ∧ mkJsNumber (n : ℚ) = .finite (n : ℚ)) ∨
      ((fl64Overflow : ℚ) ≤ (n : ℚ) ∧ mkJsNumber (n : ℚ) = .posInf) := by
  by_cases hb : (fl64Overflow : ℚ) ≤ (n : ℚ)
  · right
    exact ⟨hb, by simp [mkJsNumber, hb]⟩
  · left
    refine ⟨not_le.mp hb, ?_⟩
    have hpos : (0 : ℚ) < (fl64Overflow : ℚ) := by exact_mod_cast fl64Overflow_pos
    have h0 : (0 : ℚ) ≤ (n : ℚ) := Nat.cast_nonneg _
    exact mkJsNumber_small (by linarith) (not_le.mp hb)

theorem parseNumber_digits (s : String) (h1 : s.data ≠ [])
    (h2 : ∀ ch ∈ s.data, isDigitChar ch = true) (hlen : s.data.length ≤ 15) :
    parseNumber (some s) = some ((decDigitsVal s.data : ℕ) : ℚ) := by
  have hsmall : decDigitsVal s.data < fl64Overflow := by
    have hb := decDigitsVal_lt s.data h2
    have hb2 : (10 : ℕ) ^ s.data.length ≤ 10 ^ 15 :=
      Nat.pow_le_pow_right (by omega) hlen
    have hb3 := pow15_lt_fl64
    omega
  have hcast : ((decDigitsVal s.data : ℕ) : ℚ) < (fl64Overflow : ℚ) := by
    exact_mod_cast hsmall
  have hneg : -((fl64Overflow : ℕ) : ℚ) < ((decDigitsVal s.data : ℕ) : ℚ) := by
    have hpos : (0 : ℚ) < (fl64Overflow : ℚ) := by exact_mod_cast fl64Overflow_pos
    have h0 : (0 : ℚ) ≤ ((decDigitsVal s.data : ℕ) : ℚ) := Nat.cast_nonneg _
    linarith
  simp [parseNumber, jsStrToNumber_digits s h1 h2, mkJsNumber_small hneg hcast]

theorem parseNumber_neg_digits (s : String) (h1 : s.data ≠ [])
    (h2 : ∀ ch ∈ s.data, isDigitChar ch = true) (hlen : s.data.length ≤ 15) :
    parseNumber (some ⟨'-' :: s.data⟩) = some (-((decDigitsVal s.data : ℕ) : ℚ)) := by
  have hsmall : decDigitsVal s.data < fl64Overflow := by
    have hb := decDigitsVal_lt s.data h2
    have hb2 : (10 : ℕ) ^ s.data.length ≤ 10 ^ 15 :=
      Nat.pow_le_pow_right (by omega) hlen
    have hb3 := pow15_lt_fl64
    omega
  have hcast : ((decDigitsVal s.data : ℕ) : ℚ) < (fl64Overflow : ℚ) := by
    exact_mod_cast hsmall
  have hpos : (0 : ℚ) < (fl64Overflow : ℚ) := by exact_mod_cast fl64Overflow_pos
  have h0 : (0 : ℚ) ≤ ((decDigitsVal s.data : ℕ) : ℚ) := Nat.cast_nonneg _
  have hm : mkJsNumber (-((decDigitsVal s.data : ℕ) : ℚ)) =
      .finite (-((decDigitsVal s.data : ℕ) : ℚ)) :=
    mkJsNumber_small (by linarith) (by linarith)
  simp [parseNumber, jsStrToNumber_neg_digits s h1 h2, hm]

theorem parseNumber_huge_digits : parseNumber (some hugeDigits) = none := by
  have h := jsStrToNumber_digits hugeDigits (by decide) (by decide)
  have hover : ((fl64Overflow : ℕ) : ℚ) ≤ ((decDigitsVal hugeDigits.data : ℕ) : ℚ) := by
    exact_mod_cast (show fl64Overflow ≤ decDigitsVal hugeDigits.data by decide)
  simp [parseNumber, h, mkJsNumber, hover]

theorem remote_size_eq (url : String) (head : FetchOutcome) (r : HttpResponse)
    (body : BodyOutcome) (h2 : respOk r = true) :
    (getRemoteImageMetadata url head (.response r) body).size =
      (if (headPhase head).1 = none then
        match parseTotalFromContentRange r.contentRange with
        | some total => some total
        | none =>
          if r.status = 200 ∧ parseNumber r.contentLength ≠ none then
            parseNumber r.contentLength
          else none
       else (headPhase head).1) := by
  simp only [getRemoteImageMetadata]
  rw [if_pos h2]
  cases body with
  | decoded w h => cases w <;> cases h <;> rfl
  | decodeThrow m => rfl
  | readAbort => rfl
  | readFail m => rfl

theorem remote_target (url : String) (head getOut : FetchOutcome)
    (body : BodyOutcome) :
    (getRemoteImageMetadata url head getOut body).target = url := by
  cases getOut with
  | response r =>
    simp only [getRemoteImageMetadata]
    split
    · cases body with
      | decoded w h => cases w <;> cases h <;> rfl
      | decodeThrow m => rfl
      | readAbort => rfl
      | readFail m => rfl
    · rfl
  | abortError => rfl
  | failure m => rfl

/-- C4: when phase 1 left `size` unset and the ranged GET succeeds, the
size is the `content-range` total when one parses; otherwise, when the GET
status is exactly 200, it falls back to that response's `content-length`;
otherwise the size stays unknown. -/
theorem remote_size_from_get {url : String} {head : FetchOutcome}
    {r : HttpResponse} {body : BodyOutcome}
    (h1 : (headPhase head).1 = none) (h2 : respOk r = true) :
    (∀ t : ℚ, parseTotalFromContentRange r.contentRange = some t →
      (getRemoteImageMetadata url head (.response r) body).size = some t) ∧
    (parseTotalFromContentRange r.contentRange = none → r.status = 200 →
      (getRemoteImageMetadata url head (.response r) body).size =
        parseNumber r.contentLength) ∧
    (parseTotalFromContentRange r.contentRange = none → r.status ≠ 200 →
      (getRemoteImageMetadata url head (.response r) body).size = none) := by
  refine ⟨?_, ?_, ?_⟩
  · intro t ht
    rw [remote_size_eq url head r body h2, if_pos h1, ht]
  · intro ht h200
    rw [remote_size_eq url head r body h2, if_pos h1, ht]
    rcases hpn : parseNumber r.contentLength with _ | q
    · simp [h200, hpn]
    · simp [h200, hpn]
  · intro ht hn200
    rw [remote_size_eq url head r body h2, if_pos h1, ht]
    simp [hn200]

/-- C4 witness: HEAD timing out followed by a full 200 GET carrying
`content-length: 2048` yields size 2048 with the HEAD-timeout token and
`OK(GET)` in the status. -/
theorem remote_size_from_get_witness :
    c4probe.size = some 2048 ∧
    hasToken c4probe.status "HEAD timeout" = true ∧
    hasToken c4probe.status "OK(GET)" = true := by
  refine ⟨?_, by decide, by decide⟩
  have h := (@remote_size_from_get "u" FetchOutcome.abortError
    ⟨200, some "2048", none⟩ (BodyOutcome.decodeThrow "bad") rfl rfl).2.1 rfl rfl
  exact h.trans ((parseNumber_digits "2048" (by decide) (by decide)
    (by decide)).trans (by decide))

/-- C5: a non-success ranged GET appends the `GET <status>` token and
returns at once with whatever size phase 1 captured and both dimensions
unknown, for every possible body outcome (none is consulted). -/
theorem remote_get_failure_early_return {url : String} {head : FetchOutcome}
    {r : HttpResponse} {body : BodyOutcome} (h : respOk r = false) :
    getRemoteImageMetadata url head (.response r) body =
      { target := url, size := (headPhase head).1,
        status := statusOf ((headPhase head).2 ++ ["GET " ++ toString r.status]),
        width := none, height := none } := by
  simp only [getRemoteImageMetadata]
  rw [if_neg (by simp [h])]

/-- C5 witness: HEAD 404 followed by GET 404 yields unknown size and
dimensions with both `HEAD 404` and `GET 404` in the status. -/
theorem remote_get_failure_early_return_witness :
    c5probe.size = none ∧ c5probe.width = none ∧ c5probe.height = none ∧
    hasToken c5probe.status "HEAD 404" = true ∧
    hasToken c5probe.status "GET 404" = true := by
  have h := @remote_get_failure_early_return "u"
    (FetchOutcome.response ⟨404, none, none⟩) ⟨404, none, none⟩
    (BodyOutcome.decodeThrow "x") (by decide)
  refine ⟨?_, ?_, ?_, ?_, ?_⟩ <;> simp only [c5probe, h] <;> decide

/-- C6 (amended): when phase 1 left `size` unset, a parseable
`content-range` total takes precedence over the GET's own
`content-length` for a successful range response; a `content-length`
observed on a successful HEAD, however, takes precedence over both, since
the GET phase never overrides a size that is already set. -/
theorem remote_content_range_precedence {url : String} {head : FetchOutcome}
    {r : HttpResponse} {body : BodyOutcome} {t : ℚ}
    (h1 : (headPhase head).1 = none) (h2 : respOk r = true)
    (h3 : parseTotalFromContentRange r.contentRange = some t) :
    (getRemoteImageMetadata url head (.response r) body).size = some t := by
  rw [remote_size_eq url head r body h2, if_pos h1, h3]

/-- C6 counterexample: when a successful HEAD observed
`content-length: 100`, a successful range response whose `content-range`
total parses to the disagreeing `999` does not take precedence: the
returned size is 100, not the content-range total. -/
theorem remote_head_size_not_overridden :
    parseTotalFromContentRange (some "bytes 0-65535/999") = some 999 ∧
    c6probe.size = some 100 ∧ (100 : ℚ) ≠ 999 := by
  refine ⟨by decide, ?_, by decide⟩
  have hp := parseNumber_digits "100" (by decide) (by decide) (by decide)
  have h := remote_size_eq "u" (.response ⟨200, some "100", none⟩)
    ⟨206, some "65536", some "bytes 0-65535/999"⟩ (.decodeThrow "m") (by decide)
  rw [show (headPhase (FetchOutcome.response ⟨200, some "100", none⟩)).1 =
    parseNumber (some "100") from rfl, hp] at h
  rw [if_neg (by simp)] at h
  exact h.trans (by decide)

/-- C6 witness: with a failed HEAD, the content-range total 999 wins over
the range response's content-length 65536. -/
theorem remote_content_range_precedence_witness : c6okProbe.size = some 999 := by
  have h3 : parseTotalFromContentRange (some "bytes 0-65535/999") =
      some (999 : ℚ) := by decide
  exact @remote_content_range_precedence "u"
    (FetchOutcome.response ⟨404, none, none⟩)
    ⟨206, some "65536", some "bytes 0-65535/999"⟩
    (BodyOutcome.decodeThrow "m") 999 rfl (by decide) h3

/-- C7 counterexample: the empty header string is coerced by Number to 0,
so the parsed content-length is 0 — not treated as absent. -/
theorem parseNumber_empty_is_zero : parseNumber (some "") = some 0 := by decide

/-- C7 (amended): a missing header value is absent, and the content-range
total parser never yields NaN — a parsed total is either a non-negative
integer below the float64 overflow boundary or Infinity, the latter for a
309-or-more-digit capture, which the isNaN-only guard returns rather than
treating as absent.  For content-length, a nonempty all-digit value of at
most 15 digits parses to the non-negative integer it denotes, and an
all-digit value coercing to Infinity is treated as absent by the isFinite
filter; but the empty string parses to 0 — not absent — and a minus-signed
digit string parses to the corresponding negative integer, so parsed
content-lengths are not always non-negative; exactly the values coercing
to NaN or an infinity are treated as absent by parseNumber. -/
theorem header_numeric_semantics :
    parseNumber none = none ∧
    (∀ (cr : Option String) (j : JsNumber), parseTotalNumber cr = some j →
      (∃ n : ℕ, (n : ℚ) < ((fl64Overflow : ℕ) : ℚ) ∧
        j = JsNumber.finite (n : ℚ)) ∨ j = JsNumber.posInf) ∧
    parseTotalNumber (some hugeContentRange) = some JsNumber.posInf ∧
    (∀ s : String, s.data ≠ [] → (∀ ch ∈ s.data, isDigitChar ch = true) →
      s.data.length ≤ 15 →
      parseNumber (some s) = some ((decDigitsVal s.data : ℕ) : ℚ) ∧
      parseNumber (some ⟨'-' :: s.data⟩) =
        some (-((decDigitsVal s.data : ℕ) : ℚ))) ∧
    parseNumber (some hugeDigits) = none ∧
    parseNumber (some "") = some 0 ∧
    (∀ s : String, parseNumber (some s) = none ↔
      (jsStrToNumber s = .nan ∨ jsStrToNumber s = .posInf ∨
        jsStrToNumber s = .negInf)) := by
  refine ⟨rfl, ?_, by decide, ?_, parseNumber_huge_digits, by decide, ?_⟩
  · intro cr j h
    match cr with
    | none => simp [parseTotalNumber] at h
    | some s =>
      simp only [parseTotalNumber] at h
      split at h
      · exact absurd h (by simp)
      · split at h
        · rw [Option.some.injEq] at h
          subst h
          exact (mkJsNumber_natCast _).imp (fun hp => ⟨_, hp.1, hp.2⟩)
            (fun hp => hp.2)
        · exact absurd h (by simp)
  · intro s hne hdig hlen
    exact ⟨parseNumber_digits s hne hdig hlen, parseNumber_neg_digits s hne hdig hlen⟩
  · intro s
    cases h : jsStrToNumber s <;> simp [parseNumber, h]

/-- C7 witness: the amended semantics instantiated on a content-range
header with total 999, on the digit string 2048, and on the signed string
built from the digit string 5. -/
theorem header_numeric_semantics_witness :
    ((∃ n : ℕ, (n : ℚ) < ((fl64Overflow : ℕ) : ℚ) ∧
        JsNumber.finite ((999 : ℕ) : ℚ) = JsNumber.finite (n : ℚ)) ∨
      JsNumber.finite ((999 : ℕ) : ℚ) = JsNumber.posInf) ∧
    parseNumber (some "2048") = some ((decDigitsVal "2048".data : ℕ) : ℚ) ∧
    parseNumber (some ⟨'-' :: "5".data⟩) =
      some (-((decDigitsVal "5".data : ℕ) : ℚ)) :=
  ⟨header_numeric_semantics.2.1 (some "bytes 0-65535/999")
      (JsNumber.finite ((999 : ℕ) : ℚ)) (by decide),
   (header_numeric_semantics.2.2.2.1 "2048" (by decide) (by decide) (by decide)).1,
   (header_numeric_semantics.2.2.2.1 "5" (by decide) (by decide) (by decide)).2⟩

/-- C9: every record either prober produces carries both dimensions or
neither — no record has exactly one known dimension. -/
theorem dimensions_both_or_neither :
    (∀ (url : String) (ho go : FetchOutcome) (bo : BodyOutcome),
      ((getRemoteImageMetadata url ho go bo).width = none ∧
        (getRemoteImageMetadata url ho go bo).height = none) ∨
      (∃ w h : Int, (getRemoteImageMetadata url ho go bo).width = some w ∧
        (getRemoteImageMetadata url ho go bo).height = some h)) ∧
    (∀ (t : String) (st : StatOutcome) (dec : LocalDecode),
      ((getLocalImageMetadata t st dec).width = none ∧
        (getLocalImageMetadata t st dec).height = none) ∨
      (∃ w h : Int, (getLocalImageMetadata t st dec).width = some w ∧
        (getLocalImageMetadata t st dec).height = some h)) := by
  constructor
  · intro url ho go bo
    cases go with
    | response r =>
      simp only [getRemoteImageMetadata]
      split
      · cases bo with
        | decoded w h =>
          cases w with
          | none => cases h <;> simp
          | some wv =>
            cases h with
            | none => simp
            | some hv => exact Or.inr ⟨wv, hv, rfl, rfl⟩
        | decodeThrow m => simp
        | readAbort => simp
        | readFail m => simp
      · simp
    | abortError => simp [getRemoteImageMetadata]
    | failure m => simp [getRemoteImageMetadata]
  · intro t st dec
    cases st with
    | statDone isf sz =>
      cases isf with
      | false => simp [getLocalImageMetadata]
      | true =>
        cases dec with
        | decoded w h =>
          cases w with
          | none => cases h <;> simp [getLocalImageMetadata]
          | some wv =>
            cases h with
            | none => simp [getLocalImageMetadata]
            | some hv => exact Or.inr ⟨wv, hv, rfl, rfl⟩
        | decodeThrow m => simp [getLocalImageMetadata]
    | enoent => simp [getLocalImageMetadata]
    | statErr m => simp [getLocalImageMetadata]

/-- C10: once the HEAD phase set the size from its content-length, the
GET phase never modifies it — for every GET outcome and body outcome the
record keeps the phase-1 size (and the target), the GET phase only
contributing width, height and status. -/
theorem remote_get_preserves_head_size {url : String} {head getOut : FetchOutcome}
    {body : BodyOutcome} {q : ℚ} (h : (headPhase head).1 = some q) :
    (getRemoteImageMetadata url head getOut body).size = some q ∧
    (getRemoteImageMetadata url head getOut body).target = url := by
  refine ⟨?_, remote_target url head getOut body⟩
  cases getOut with
  | response r =>
    cases hr : respOk r with
    | false =>
      rw [remote_get_failure_early_return hr]
      exact h
    | true =>
      rw [remote_size_eq url head r body hr, if_neg (by simp [h])]
      exact h
  | abortError => simpa [getRemoteImageMetadata] using h
  | failure m => simpa [getRemoteImageMetadata] using h

/-- C10 witness: with HEAD content-length 1024 set, a 200 GET carrying a
content-range total 999 and content-length 65536 leaves size 1024. -/
theorem remote_get_preserves_head_size_witness :
    c10probe.size = some 1024 ∧ c10probe.target = "u" := by
  have hp := parseNumber_digits "1024" (by decide) (by decide) (by decide)
  have h := @remote_get_preserves_head_size "u"
    (FetchOutcome.response ⟨200, some "1024", none⟩)
    (FetchOutcome.response ⟨200, some "65536", some "bytes 0-65535/999"⟩)
    (BodyOutcome.decoded (some 3) (some 4))
    ((decDigitsVal "1024".data : ℕ) : ℚ)
    (show parseNumber (some "1024") = _ from hp)
  exact ⟨(h.1).trans (by decide), h.2⟩

/-! ## Report sort lemmas -/

theorem rowLe_trans (a b c : ReportRow) (hab : rowLe a b) (hbc : rowLe b c) :
    rowLe a c := by
  simp only [rowLe, decide_eq_true_eq] at *
  exact le_trans hbc hab

theorem rowLe_total (a b : ReportRow) : rowLe a b || rowLe b a := by
  simp only [rowLe, Bool.or_eq_true, decide_eq_true_eq]
  exact le_total _ _

/-- C8: the rendered sequence is a permutation of the rows, sorted
descending by the size key (`-1` standing for unknown), with unknowns
sinking below all rows of non-negative known size, and rows of equal key
keeping their original discovery order. -/
theorem sortRows_spec (rows : List ReportRow) :
    (sortRows rows).Perm rows ∧
    (sortRows rows).Pairwise (fun a b => sortKey b ≤ sortKey a) ∧
    ((∀ r ∈ rows, ∀ q : ℚ, r.size = some q → 0 ≤ q) →
      (sortRows rows).Pairwise (fun a b => a.size = none → b.size = none)) ∧
    (∀ a b : ReportRow, sortKey a = sortKey b → List.Sublist [a, b] rows →
      List.Sublist [a, b] (sortRows rows)) := by
  have hsorted : (sortRows rows).Pairwise (fun a b => sortKey b ≤ sortKey a) := by
    have h := List.sorted_mergeSort rowLe_trans rowLe_total rows
    exact h.imp (fun hab => by simpa [rowLe] using hab)
  refine ⟨List.mergeSort_perm rows rowLe, hsorted, ?_, ?_⟩
  · intro hnn
    refine hsorted.imp_of_mem ?_
    intro a b ha hb hle hnone
    rcases hb2 : b.size with _ | q
    · rfl
    · exfalso
      have hbmem : b ∈ rows := by
        have := (List.mergeSort_perm rows rowLe).mem_iff.mp hb
        exact this
      have hq : 0 ≤ q := hnn b hbmem q hb2
      have hka : sortKey a = -1 := by simp [sortKey, hnone]
      have hkb : sortKey b = q := by simp [sortKey, hb2]
      rw [hka, hkb] at hle
      linarith
  · intro a b hk hsub
    exact List.pair_sublist_mergeSort rowLe_trans rowLe_total
      (by simp [rowLe, hk]) hsub

/-- C8 witness: rows with sizes 100, unknown, 500 sort to 500, 100,
unknown, and the unknown-sinks property holds on them. -/
theorem sortRows_spec_witness :
    sortRows exRows = [⟨"c", some 500, 1⟩, ⟨"a", some 100, 1⟩, ⟨"b", none, 1⟩] ∧
    (sortRows exRows).Pairwise (fun a b => a.size = none → b.size = none) := by
  constructor
  · simp only [sortRows, exRows]
    simp [List.mergeSort, List.splitInTwo, List.merge,
      show rowLe ⟨"a", some 100, 1⟩ ⟨"b", none, 1⟩ = true from by decide,
      show rowLe ⟨"a", some 100, 1⟩ ⟨"c", some 500, 1⟩ = false from by decide]
  · refine (sortRows_spec exRows).2.2.1 ?_
    intro r hr q hq
    simp only [exRows, List.mem_cons, List.not_mem_nil, or_false] at hr
    rcases hr with rfl | rfl | rfl <;> simp only [] at hq <;>
      first
        | (injection hq with hq2; subst hq2; norm_num)
        | exact absurd hq (by simp)

end Scanimg
